import Mathlib

/-!
Verification model of the cointop CoinGecko API backend
(`pkg/api/impl/coingecko/coingecko.go`).

The Go code is shallowly embedded: the upstream CoinGecko client is an
explicit oracle parameter (a pure function standing for the network call),
`sync.Map` becomes an insertion-ordered association list with
store-if-absent semantics, float64 fields become rationals, pointer fields
that may be nil become `Option`, and the streaming goroutine of
`GetAllCoinData` becomes a pure event trace (sleep / request / emit /
close events in program order).

Helpers from `pkg/api/util` (NameToSlug and the Format* functions) are not
part of the provided sources; they are modelled from the specification and
are marked as such in their doc comments.
-/

namespace Coingecko

/-- Charwise model of Go `strings.ToLower` (ASCII case mapping). -/
def strToLower (s : String) : String :=
  String.mk (s.data.map Char.toLower)

/-- Model of Go `strings.TrimSpace`: drop whitespace from both ends. -/
def trimSpace (s : String) : String :=
  String.mk (((s.data.dropWhile Char.isWhitespace).reverse.dropWhile Char.isWhitespace).reverse)

/-- Splitting a character list on the space character, Go `strings.Split(s, " ")`
semantics: `split "" = [""]`, separators delimit possibly-empty fields. -/
def splitChars : List Char → List (List Char)
  | [] => [[]]
  | c :: cs =>
    let r := splitChars cs
    if c = ' ' then [] :: r
    else (c :: r.headD []) :: r.tail

/-- Model of Go `strings.Split(s, " ")`. -/
def splitOnSpace (s : String) : List String :=
  (splitChars s.data).map String.mk

/-- Modelled from the spec: `util.NameToSlug` is not in the provided sources.
Spec §4.1: the slug is the lower-cased name with non-alphanumeric characters
replaced by separators. -/
def nameToSlug (s : String) : String :=
  String.mk (s.data.map (fun c => if c.isAlphanum then c.toLower else '-'))

/-- The resolution table: `sync.Map` keys/values observed in catalog insertion
order, modelled as an association list whose lookup returns the first match. -/
abbrev Table : Type := List (String × String)

/-- First-match association-list lookup (model of `sync.Map.Load`). -/
def alookup {β : Type} : List (String × β) → String → Option β
  | [], _ => none
  | (k', v) :: rest, k => if k = k' then some v else alookup rest k

/-- Left-biased choice on options. -/
def optOr {β : Type} : Option β → Option β → Option β
  | some v, _ => some v
  | none, o => o

/-- The `Load`-then-`Store` pattern of `cacheCoinsIDList`: a key is stored only
if it is not already present (first-seen precedence). -/
def storeIfAbsent (m : Table) (k v : String) : Table :=
  match alookup m k with
  | some _ => m
  | none => m ++ [(k, v)]

/-- A catalog entry as returned by the provider's coins list
(`CoinsListItem`: canonical ID, display name, ticker symbol). -/
structure CatalogEntry where
  ID : String
  Name : String
  Symbol : String
deriving DecidableEq, Repr

/-- The keys an entry registers during the catalog pass of `cacheCoinsIDList`:
lower-cased name, lower-cased symbol, slug of the name, and additionally the
first word of a multi-word name whose second word is exactly "coin". -/
def passKeys (item : CatalogEntry) : List String :=
  let lname := strToLower item.Name
  let keys := [lname, strToLower item.Symbol, nameToSlug item.Name]
  let parts := splitOnSpace lname
  if 1 < parts.length then
    (if parts[1]! = "coin" then keys ++ [parts[0]!] else keys)
  else keys

/-- The first-word alias an entry defers (collected into `firstWords` during
the pass): present exactly when the name is multi-word and the second word is
not "coin". -/
def deferredOf (item : CatalogEntry) : List (String × String) :=
  let parts := splitOnSpace (strToLower item.Name)
  if 1 < parts.length then
    (if parts[1]! = "coin" then [] else [(parts[0]!, item.ID)])
  else []

/-- Store each key of a list with first-seen precedence (the `for _, key :=
range keys` loop body of `cacheCoinsIDList`). -/
def insertKeys (m : Table) (ks : List String) (id : String) : Table :=
  ks.foldl (fun m k => storeIfAbsent m k id) m

/-- One iteration of the catalog loop of `cacheCoinsIDList`: register the
entry's pass keys and collect its deferred first-word alias. -/
def processEntry (acc : Table × List (String × String)) (item : CatalogEntry) :
    Table × List (String × String) :=
  (insertKeys acc.1 (passKeys item) item.ID, acc.2 ++ deferredOf item)

/-- The commit loop over `firstWords` after the catalog pass: each deferred
alias is stored only if its key is still absent. -/
def commitDeferred (m : Table) (fw : List (String × String)) : Table :=
  fw.foldl (fun m p => storeIfAbsent m p.1 p.2) m

/-- `cacheCoinsIDList`, the resolution-table build: one pass over the catalog
registering keys and collecting deferred first-word aliases, then a commit
loop over the collected aliases. -/
def cacheCoinsIDList (catalog : List CatalogEntry) : Table :=
  let r := catalog.foldl processEntry ([], [])
  commitDeferred r.1 r.2

/-- `coinNameToID`: trim and lower-case the input, look it up in the cache;
on a miss fall back to the slug of the input. -/
def coinNameToID (table : Table) (name : String) : String :=
  match alookup table (strToLower (trimSpace name)) with
  | some id => id
  | none => nameToSlug name

/-- The pass-only table: the resolution table as it stands after the catalog
pass, before deferred aliases are committed. -/
def passStep (m : Table) (e : CatalogEntry) : Table :=
  insertKeys m (passKeys e) e.ID

/-- Fold of `passStep` over the catalog from the empty table. -/
def passTable (catalog : List CatalogEntry) : Table :=
  catalog.foldl passStep []

/-- The deferred first-word aliases collected over the whole catalog, in
catalog order. -/
def deferredAliases : List CatalogEntry → List (String × String)
  | [] => []
  | e :: rest => deferredOf e ++ deferredAliases rest

/-- Modelled from the spec: `util.FormatID` is not in the provided sources;
identifier formatting is a pass-through in the normalization layer. -/
def FormatID (s : String) : String := s

/-- Modelled from the spec: `util.FormatName` is not in the provided sources;
name formatting is a pass-through. -/
def FormatName (s : String) : String := s

/-- Modelled from the spec: `util.FormatSymbol` is not in the provided
sources; symbol formatting is a pass-through. -/
def FormatSymbol (s : String) : String := s

/-- Modelled from the spec: `util.FormatRank` is not in the provided sources.
Spec §4.2: rank passes through, except that 0 ("unranked") maps to a large
sentinel so unranked coins sort last. -/
def FormatRank (rank : Int) : Int :=
  if rank = 0 then 10000000 else rank

/-- Modelled from the spec: `util.FormatSupply` is not in the provided
sources; supply values are a numeric pass-through. -/
def FormatSupply (supply : ℚ) : ℚ := supply

/-- Truncation of a rational toward zero, the model of Go's float-to-int
conversion used in rounding. -/
def truncQ (q : ℚ) : Int :=
  Int.tdiv q.num (Int.ofNat q.den)

/-- Modelled from the spec: `util.FormatPrice` is not in the provided
sources. Spec §4.2/§4.3: currency-aware rounding (more precision for crypto
quote currencies), with the currency code treated case-insensitively. -/
def FormatPrice (price : ℚ) (convert : String) : ℚ :=
  if strToLower convert = "eth" ∨ strToLower convert = "btc" then
    (truncQ (price * 10000) : ℚ) / 10000
  else (truncQ (price * 100) : ℚ) / 100

/-- Modelled from the spec: `util.FormatPercentChange` is not in the provided
sources; percent-change values are a numeric pass-through. -/
def FormatPercentChange (pc : ℚ) : ℚ := pc

/-- Modelled from the spec: `util.FormatMarketCap` is not in the provided
sources; market-cap values are a numeric pass-through. -/
def FormatMarketCap (mc : ℚ) : ℚ := mc

/-- Modelled from the spec: `util.FormatVolume` is not in the provided
sources; volume values are a numeric pass-through. -/
def FormatVolume (v : ℚ) : ℚ := v

/-- Modelled from the spec: `util.FormatLastUpdated` is not in the provided
sources; timestamp formatting is a pass-through. -/
def FormatLastUpdated (t : String) : String := t

/-- The canonical output record `apitypes.Coin` (float64 fields as ℚ). -/
structure Coin where
  ID : String
  Name : String
  Symbol : String
  Rank : Int
  AvailableSupply : ℚ
  TotalSupply : ℚ
  MarketCap : ℚ
  Price : ℚ
  PercentChange1H : ℚ
  PercentChange24H : ℚ
  PercentChange7D : ℚ
  PercentChange30D : ℚ
  Volume24H : ℚ
  LastUpdated : String
deriving DecidableEq, Repr

/-- The zero value `apitypes.Coin{}`. -/
def zeroCoin : Coin :=
  ⟨"", "", "", 0, 0, 0, 0, 0, 0, 0, 0, 0, 0, ""⟩

/-- A raw provider record from a ranked market-data page
(`geckoTypes.CoinsMarketItem`); the per-window percent-change fields are
nullable pointers, modelled as `Option`. -/
structure GeckoItem where
  ID : String
  Name : String
  Symbol : String
  MarketCapRank : Int
  CurrentPrice : ℚ
  CirculatingSupply : ℚ
  TotalSupply : ℚ
  MarketCap : ℚ
  TotalVolume : ℚ
  LastUpdated : String
  PriceChangePercentage1hInCurrency : Option ℚ
  PriceChangePercentage24hInCurrency : Option ℚ
  PriceChangePercentage7dInCurrency : Option ℚ
  PriceChangePercentage30dInCurrency : Option ℚ
deriving DecidableEq, Repr

/-- The parameters `getPaginatedCoinData` passes to `client.CoinsMarket`. -/
structure MarketParams where
  vsCurrency : String
  ids : List String
  order : String
  perPage : Nat
  page : Nat
  sparkline : Bool
  priceChangePercentage : List String
deriving DecidableEq, Repr

/-- `maxResultsPerPage` set in `NewCoinGecko` (provider maximum). -/
def maxResultsPerPage : Nat := 250

/-- `maxPages` set in `NewCoinGecko` (pagination ceiling). -/
def maxPages : Nat := 10

/-- The oracle standing for `client.CoinsMarket`: a pure function from request
parameters to either an error or the (possibly nil) list of raw records. -/
abbrev MarketOracle : Type :=
  MarketParams → Except String (Option (List GeckoItem))

/-- The request `getPaginatedCoinData convert offset names` sends: page is
`offset + 1` (pages start at 1), page size is the provider maximum, ordering
is market-cap descending, sparkline disabled, percent-change windows fixed at
1h/24h/7d/30d, the currency lower-cased and defaulted to "usd" when empty,
and every name resolved through the cache. -/
def marketParams (table : Table) (convert : String) (offset : Nat)
    (names : List String) : MarketParams :=
  let convertTo := strToLower convert
  let convertTo := if convertTo = "" then "usd" else convertTo
  { vsCurrency := convertTo
    ids := names.map (coinNameToID table)
    order := "market_cap_desc"
    perPage := maxResultsPerPage
    page := offset + 1
    sparkline := false
    priceChangePercentage := ["1h", "24h", "7d", "30d"] }

/-- The normalization applied to each raw record in the `for _, item := range
*list` loop of `getPaginatedCoinData`: nil percent changes default to 0, a
zero total supply falls back to circulating supply, and every field goes
through its formatter. -/
def normalizeItem (convert : String) (item : GeckoItem) : Coin :=
  let price := item.CurrentPrice
  let percentChange1H := match item.PriceChangePercentage1hInCurrency with
    | some v => v
    | none => 0
  let percentChange24H := match item.PriceChangePercentage24hInCurrency with
    | some v => v
    | none => 0
  let percentChange7D := match item.PriceChangePercentage7dInCurrency with
    | some v => v
    | none => 0
  let percentChange30D := match item.PriceChangePercentage30dInCurrency with
    | some v => v
    | none => 0
  let availableSupply := item.CirculatingSupply
  let totalSupply := item.TotalSupply
  let totalSupply := if totalSupply = 0 then availableSupply else totalSupply
  { ID := FormatID item.ID
    Name := FormatName item.Name
    Symbol := FormatSymbol item.Symbol
    Rank := FormatRank item.MarketCapRank
    AvailableSupply := FormatSupply availableSupply
    TotalSupply := FormatSupply totalSupply
    MarketCap := FormatMarketCap item.MarketCap
    Price := FormatPrice price convert
    PercentChange1H := FormatPercentChange percentChange1H
    PercentChange24H := FormatPercentChange percentChange24H
    PercentChange7D := FormatPercentChange percentChange7D
    PercentChange30D := FormatPercentChange percentChange30D
    Volume24H := FormatVolume item.TotalVolume
    LastUpdated := FormatLastUpdated item.LastUpdated }

/-- `getPaginatedCoinData`: build the request, call the provider, propagate
its error, and otherwise normalize every record of the (possibly nil) page. -/
def getPaginatedCoinData (table : Table) (market : MarketOracle)
    (convert : String) (offset : Nat) (names : List String) :
    Except String (List Coin) :=
  match market (marketParams table convert offset names) with
  | Except.error e => Except.error e
  | Except.ok none => Except.ok []
  | Except.ok (some list) => Except.ok (list.map (normalizeItem convert))

/-- Observable events of the `GetAllCoinData` goroutine, in program order:
the inter-page pause, a page request with its parameters, a batch sent on the
channel, and the channel being closed. The channel itself carries only
`emit` batches, so no error value can travel through it. -/
inductive Event where
  | sleep : Event
  | req : MarketParams → Event
  | emit : List Coin → Event
  | close : Event
deriving DecidableEq, Repr

/-- The `for i := 0; i < s.maxPages; i++` loop of the `GetAllCoinData`
goroutine, with the remaining iteration count as fuel: sleep before every
page but the first, request the page, and on error return (running the
deferred close); otherwise emit the batch and continue. The deferred close
also runs when the loop ends at the ceiling. -/
def streamLoop (table : Table) (market : MarketOracle) (convert : String)
    (i : Nat) : Nat → List Event
  | 0 => [Event.close]
  | n + 1 =>
    (if 0 < i then [Event.sleep] else []) ++
      (Event.req (marketParams table convert i []) ::
        match getPaginatedCoinData table market convert i [] with
        | Except.error _ => [Event.close]
        | Except.ok coins => Event.emit coins :: streamLoop table market convert (i + 1) n)

/-- `GetAllCoinData`: spawns the paging goroutine and returns nil
unconditionally. The result is the returned error value (always `none`)
paired with the goroutine's event trace. -/
def GetAllCoinData (table : Table) (market : MarketOracle) (convert : String) :
    Option String × List Event :=
  (none, streamLoop table market convert 0 maxPages)

/-- The batches sent on the channel, in order, read off an event trace. -/
def emittedBatches (t : List Event) : List (List Coin) :=
  t.filterMap fun e =>
    match e with
    | Event.emit b => some b
    | _ => none

/-- The page indices requested from the provider, in order, read off an
event trace. -/
def reqPages (t : List Event) : List Nat :=
  t.filterMap fun e =>
    match e with
    | Event.req p => some p.page
    | _ => none

/-- How many times the channel is closed in a trace. -/
def countClose (t : List Event) : Nat :=
  t.countP fun e =>
    match e with
    | Event.close => true
    | _ => false

/-- `[start, start+1, ..., start+len-1]`. -/
def natRange (start : Nat) : Nat → List Nat
  | 0 => []
  | n + 1 => start :: natRange (start + 1) n

/-- `GetCoinData`: fetch page offset 0 filtered to the one name; on error
return the zero Coin and the error; otherwise return the first record if any,
else the zero Coin, with nil error. -/
def GetCoinData (table : Table) (market : MarketOracle)
    (name : String) (convert : String) : Coin × Option String :=
  match getPaginatedCoinData table market convert 0 [name] with
  | Except.error e => (zeroCoin, some e)
  | Except.ok [] => (zeroCoin, none)
  | Except.ok (c :: _) => (c, none)

/-- The error values `Price` can return: the sentinel `ErrNotFound`, or an
error propagated from the upstream simple-price call. -/
inductive PriceError where
  | errNotFound : PriceError
  | upstream : String → PriceError
deriving DecidableEq, Repr

/-- The oracle standing for `client.SimplePrice`: ids and currencies to
either an error or a list of per-coin currency-to-price maps (each map
modelled as an association list). -/
abbrev SimplePriceOracle : Type :=
  List String → List String → Except String (List (List (String × ℚ)))

/-- The `for _, item := range *priceList` loop of `Price`: the first item
containing the requested currency yields its price. -/
def priceLoop (conv : String) : List (List (String × ℚ)) → Option ℚ
  | [] => none
  | item :: rest =>
    match alookup item conv with
    | some p => some p
    | none => priceLoop conv rest

/-- `Price`: resolve the name, lower-case the currency, call the simple-price
endpoint; propagate its error, return the first matching entry's formatted
price, or `ErrNotFound` when no entry carries the currency. -/
def Price (table : Table) (sp : SimplePriceOracle)
    (name : String) (convert : String) : ℚ × Option PriceError :=
  let ids := [coinNameToID table name]
  let conv := strToLower convert
  match sp ids [conv] with
  | Except.error e => (0, some (PriceError.upstream e))
  | Except.ok priceList =>
    match priceLoop conv priceList with
    | some p => (FormatPrice p conv, none)
    | none => (0, some PriceError.errNotFound)

example : splitOnSpace "bitcoin cash" = ["bitcoin", "cash"] := by decide
example : strToLower "Usd" = "usd" := by decide
example : nameToSlug " A B" = "-a-b" := by decide
example : trimSpace " a b " = "a b" := by decide
example :
    coinNameToID
      (cacheCoinsIDList [⟨"A", "Bitcoin Cash", "BCH"⟩, ⟨"B", "Bitcoin", "BTC"⟩])
      "bitcoin" = "B" := by decide

theorem optOr_none_right {β : Type} (o : Option β) : optOr o none = o := by
  cases o <;> rfl

theorem optOr_assoc {β : Type} (a b c : Option β) :
    optOr (optOr a b) c = optOr a (optOr b c) := by
  cases a <;> rfl

theorem alookup_append {β : Type} (m1 m2 : List (String × β)) (k : String) :
    alookup (m1 ++ m2) k = optOr (alookup m1 k) (alookup m2 k) := by
  induction m1 with
  | nil => rfl
  | cons p rest ih =>
    obtain ⟨k', v⟩ := p
    by_cases h : k = k' <;> simp [alookup, h, ih, optOr]

theorem alookup_storeIfAbsent (m : Table) (k' v' k : String) :
    alookup (storeIfAbsent m k' v') k =
      optOr (alookup m k) (if k = k' then some v' else none) := by
  unfold storeIfAbsent
  cases h : alookup m k' with
  | some v =>
    by_cases hk : k = k'
    · subst hk; rw [h, if_pos rfl]; rfl
    · rw [if_neg hk, optOr_none_right]
  | none =>
    rw [alookup_append]
    by_cases hk : k = k' <;> simp [alookup, hk]

theorem alookup_insertKeys (ks : List String) (m : Table) (id k : String) :
    alookup (insertKeys m ks id) k =
      optOr (alookup m k) (if k ∈ ks then some id else none) := by
  induction ks generalizing m with
  | nil =>
    rw [show insertKeys m [] id = m from rfl]
    simp [optOr_none_right]
  | cons k' ks ih =>
    rw [show insertKeys m (k' :: ks) id = insertKeys (storeIfAbsent m k' id) ks id from rfl]
    rw [ih, alookup_storeIfAbsent, optOr_assoc]
    congr 1
    by_cases h1 : k = k' <;> by_cases h2 : k ∈ ks <;>
      simp [h1, h2, optOr, List.mem_cons]

theorem foldl_processEntry (catalog : List CatalogEntry) (m : Table)
    (fw : List (String × String)) :
    catalog.foldl processEntry (m, fw) =
      (catalog.foldl passStep m, fw ++ deferredAliases catalog) := by
  induction catalog generalizing m fw with
  | nil => simp [deferredAliases]
  | cons e rest ih =>
    simp only [List.foldl_cons]
    rw [show processEntry (m, fw) e = (passStep m e, fw ++ deferredOf e) from rfl, ih]
    simp [deferredAliases]

theorem cacheCoinsIDList_eq (catalog : List CatalogEntry) :
    cacheCoinsIDList catalog =
      commitDeferred (passTable catalog) (deferredAliases catalog) := by
  show commitDeferred (catalog.foldl processEntry ([], [])).1
      (catalog.foldl processEntry ([], [])).2 = _
  rw [foldl_processEntry]
  rfl

theorem alookup_commitDeferred_of_some (fw : List (String × String)) (m : Table)
    (k v : String) (h : alookup m k = some v) :
    alookup (commitDeferred m fw) k = some v := by
  induction fw generalizing m with
  | nil => exact h
  | cons p rest ih =>
    refine ih (storeIfAbsent m p.1 p.2) ?_
    rw [alookup_storeIfAbsent, h]
    rfl

theorem alookup_foldl_passStep (catalog : List CatalogEntry) (m : Table) (k : String) :
    alookup (catalog.foldl passStep m) k =
      optOr (alookup m k)
        (Option.map CatalogEntry.ID
          (catalog.find? (fun e => decide (k ∈ passKeys e)))) := by
  induction catalog generalizing m with
  | nil => simp [optOr_none_right]
  | cons e rest ih =>
    simp only [List.foldl_cons]
    rw [ih]
    by_cases h : k ∈ passKeys e
    · rw [List.find?_cons_of_pos _ (by simpa using h)]
      rw [show passStep m e = insertKeys m (passKeys e) e.ID from rfl,
        alookup_insertKeys, if_pos h, optOr_assoc]
      rfl
    · rw [List.find?_cons_of_neg _ (by simpa using h)]
      rw [show passStep m e = insertKeys m (passKeys e) e.ID from rfl,
        alookup_insertKeys, if_neg h, optOr_none_right]

theorem alookup_passTable (catalog : List CatalogEntry) (k : String) :
    alookup (passTable catalog) k =
      Option.map CatalogEntry.ID
        (catalog.find? (fun e => decide (k ∈ passKeys e))) := by
  rw [passTable, alookup_foldl_passStep]
  rfl

theorem find?_append_opt {α : Type} (p : α → Bool) (l1 l2 : List α) :
    (l1 ++ l2).find? p = optOr (l1.find? p) (l2.find? p) := by
  induction l1 with
  | nil => rfl
  | cons a l ih =>
    by_cases h : p a
    · rw [List.cons_append, List.find?_cons_of_pos _ h, List.find?_cons_of_pos _ h]
      rfl
    · rw [List.cons_append, List.find?_cons_of_neg _ h, List.find?_cons_of_neg _ h, ih]

theorem alookup_cache_of_passTable (catalog : List CatalogEntry) (k v : String)
    (h : alookup (passTable catalog) k = some v) :
    alookup (cacheCoinsIDList catalog) k = some v := by
  rw [cacheCoinsIDList_eq]
  exact alookup_commitDeferred_of_some _ _ _ _ h

/-- The ideal error-free stream trace (spec §4.3/§5): every page up to the
ceiling is requested in ascending order, a pause precedes every request but
the first, each batch is emitted, and the stream closes at the ceiling. -/
def steadyTrace (table : Table) (convert : String) (bs : Nat → List Coin)
    (i : Nat) : Nat → List Event
  | 0 => [Event.close]
  | n + 1 =>
    (if 0 < i then [Event.sleep] else []) ++
      (Event.req (marketParams table convert i []) ::
        Event.emit (bs i) :: steadyTrace table convert bs (i + 1) n)

theorem streamLoop_succ (table : Table) (market : MarketOracle) (convert : String)
    (i n : Nat) :
    streamLoop table market convert i (n + 1) =
      (if 0 < i then [Event.sleep] else []) ++
        (Event.req (marketParams table convert i []) ::
          match getPaginatedCoinData table market convert i [] with
          | Except.error _ => [Event.close]
          | Except.ok coins =>
            Event.emit coins :: streamLoop table market convert (i + 1) n) := rfl

@[simp] theorem emittedBatches_nil : emittedBatches [] = [] := rfl

@[simp] theorem emittedBatches_cons_sleep (t : List Event) :
    emittedBatches (Event.sleep :: t) = emittedBatches t := rfl

@[simp] theorem emittedBatches_cons_req (p : MarketParams) (t : List Event) :
    emittedBatches (Event.req p :: t) = emittedBatches t := rfl

@[simp] theorem emittedBatches_cons_emit (b : List Coin) (t : List Event) :
    emittedBatches (Event.emit b :: t) = b :: emittedBatches t := rfl

@[simp] theorem emittedBatches_cons_close (t : List Event) :
    emittedBatches (Event.close :: t) = emittedBatches t := rfl

@[simp] theorem emittedBatches_append (t1 t2 : List Event) :
    emittedBatches (t1 ++ t2) = emittedBatches t1 ++ emittedBatches t2 :=
  List.filterMap_append t1 t2 _

@[simp] theorem emittedBatches_sleepIf (c : Prop) [Decidable c] (t : List Event) :
    emittedBatches ((if c then [Event.sleep] else []) ++ t) = emittedBatches t := by
  split <;> rfl

@[simp] theorem reqPages_nil : reqPages [] = [] := rfl

@[simp] theorem reqPages_cons_sleep (t : List Event) :
    reqPages (Event.sleep :: t) = reqPages t := rfl

@[simp] theorem reqPages_cons_req (p : MarketParams) (t : List Event) :
    reqPages (Event.req p :: t) = p.page :: reqPages t := rfl

@[simp] theorem reqPages_cons_emit (b : List Coin) (t : List Event) :
    reqPages (Event.emit b :: t) = reqPages t := rfl

@[simp] theorem reqPages_cons_close (t : List Event) :
    reqPages (Event.close :: t) = reqPages t := rfl

@[simp] theorem reqPages_append (t1 t2 : List Event) :
    reqPages (t1 ++ t2) = reqPages t1 ++ reqPages t2 :=
  List.filterMap_append t1 t2 _

@[simp] theorem reqPages_sleepIf (c : Prop) [Decidable c] (t : List Event) :
    reqPages ((if c then [Event.sleep] else []) ++ t) = reqPages t := by
  split <;> rfl

@[simp] theorem countClose_nil : countClose [] = 0 := rfl

@[simp] theorem countClose_append (t1 t2 : List Event) :
    countClose (t1 ++ t2) = countClose t1 + countClose t2 :=
  List.countP_append _ t1 t2

@[simp] theorem countClose_cons_sleep (t : List Event) :
    countClose (Event.sleep :: t) = countClose t := by
  simp [countClose, List.countP_cons]

@[simp] theorem countClose_cons_req (p : MarketParams) (t : List Event) :
    countClose (Event.req p :: t) = countClose t := by
  simp [countClose, List.countP_cons]

@[simp] theorem countClose_cons_emit (b : List Coin) (t : List Event) :
    countClose (Event.emit b :: t) = countClose t := by
  simp [countClose, List.countP_cons]

@[simp] theorem countClose_cons_close (t : List Event) :
    countClose (Event.close :: t) = countClose t + 1 := by
  simp [countClose, List.countP_cons]

@[simp] theorem countClose_sleepIf (c : Prop) [Decidable c] (t : List Event) :
    countClose ((if c then [Event.sleep] else []) ++ t) = countClose t := by
  split <;> simp

@[simp] theorem emittedBatches_sleepIfOnly (c : Prop) [Decidable c] :
    emittedBatches (if c then [Event.sleep] else []) = [] := by
  split <;> rfl

@[simp] theorem reqPages_sleepIfOnly (c : Prop) [Decidable c] :
    reqPages (if c then [Event.sleep] else []) = [] := by
  split <;> rfl

@[simp] theorem countClose_sleepIfOnly (c : Prop) [Decidable c] :
    countClose (if c then [Event.sleep] else []) = 0 := by
  split <;> rfl

@[simp] theorem marketParams_page (table : Table) (convert : String)
    (offset : Nat) (names : List String) :
    (marketParams table convert offset names).page = offset + 1 := rfl

@[simp] theorem marketParams_perPage (table : Table) (convert : String)
    (offset : Nat) (names : List String) :
    (marketParams table convert offset names).perPage = 250 := rfl

@[simp] theorem natRange_length (start n : Nat) : (natRange start n).length = n := by
  induction n generalizing start with
  | zero => rfl
  | succ n ih => simp [natRange, ih]

theorem streamLoop_fail (table : Table) (market : MarketOracle) (convert : String)
    (bs : Nat → List Coin) (F : Nat) (e : String)
    (hok : ∀ j, j < F → getPaginatedCoinData table market convert j [] = Except.ok (bs j))
    (hfail : getPaginatedCoinData table market convert F [] = Except.error e) :
    ∀ n i, i ≤ F → F < i + n →
      emittedBatches (streamLoop table market convert i n) = (natRange i (F - i)).map bs
      ∧ reqPages (streamLoop table market convert i n) = natRange (i + 1) (F + 1 - i)
      ∧ ∃ t', streamLoop table market convert i n = t' ++ [Event.close]
          ∧ countClose t' = 0 := by
  intro n
  induction n with
  | zero => intro i h1 h2; omega
  | succ n ih =>
    intro i h1 h2
    by_cases hiF : i = F
    · subst hiF
      have hstep : streamLoop table market convert i (n + 1) =
          (if 0 < i then [Event.sleep] else []) ++
            (Event.req (marketParams table convert i []) :: [Event.close]) := by
        rw [streamLoop_succ, hfail]
      refine ⟨?_, ?_, ?_⟩
      · rw [hstep]; simp [Nat.sub_self, natRange]
      · rw [hstep]
        have : i + 1 - i = 1 := by omega
        simp [this, natRange]
      · refine ⟨(if 0 < i then [Event.sleep] else []) ++ [Event.req (marketParams table convert i [])], ?_, ?_⟩
        · rw [hstep]; simp
        · simp
    · have hlt : i < F := by omega
      have hstep : streamLoop table market convert i (n + 1) =
          (if 0 < i then [Event.sleep] else []) ++
            (Event.req (marketParams table convert i []) ::
              Event.emit (bs i) :: streamLoop table market convert (i + 1) n) := by
        rw [streamLoop_succ, hok i hlt]
      obtain ⟨hA, hB, t', ht', hc⟩ := ih (i + 1) (by omega) (by omega)
      refine ⟨?_, ?_, ?_⟩
      · rw [hstep]
        have hFi : F - i = (F - (i + 1)) + 1 := by omega
        simp only [emittedBatches_sleepIf, emittedBatches_cons_req,
          emittedBatches_cons_emit, hA, hFi, natRange, List.map_cons]
      · rw [hstep]
        have hFi : F + 1 - i = (F + 1 - (i + 1)) + 1 := by omega
        simp only [reqPages_sleepIf, reqPages_cons_req, reqPages_cons_emit,
          hB, hFi, natRange, marketParams_page]
      · refine ⟨(if 0 < i then [Event.sleep] else []) ++
          (Event.req (marketParams table convert i []) :: Event.emit (bs i) :: t'), ?_, ?_⟩
        · rw [hstep, ht']
          simp
        · simp [hc]

theorem streamLoop_ok (table : Table) (market : MarketOracle) (convert : String)
    (bs : Nat → List Coin) :
    ∀ n i, (∀ j, j < i + n → getPaginatedCoinData table market convert j [] = Except.ok (bs j)) →
      streamLoop table market convert i n = steadyTrace table convert bs i n
      ∧ emittedBatches (streamLoop table market convert i n) = (natRange i n).map bs
      ∧ reqPages (streamLoop table market convert i n) = natRange (i + 1) n
      ∧ ∃ t', streamLoop table market convert i n = t' ++ [Event.close]
          ∧ countClose t' = 0 := by
  intro n
  induction n with
  | zero =>
    intro i _
    exact ⟨rfl, rfl, rfl, [], rfl, rfl⟩
  | succ n ih =>
    intro i hok
    have hstep : streamLoop table market convert i (n + 1) =
        (if 0 < i then [Event.sleep] else []) ++
          (Event.req (marketParams table convert i []) ::
            Event.emit (bs i) :: streamLoop table market convert (i + 1) n) := by
      rw [streamLoop_succ, hok i (by omega)]
    obtain ⟨hS, hA, hB, t', ht', hc⟩ := ih (i + 1) (fun j hj => hok j (by omega))
    refine ⟨?_, ?_, ?_, ?_⟩
    · rw [hstep, hS]
      rfl
    · rw [hstep]
      simp only [emittedBatches_sleepIf, emittedBatches_cons_req,
        emittedBatches_cons_emit, hA, natRange, List.map_cons]
    · rw [hstep]
      simp only [reqPages_sleepIf, reqPages_cons_req, reqPages_cons_emit,
        hB, natRange, marketParams_page]
    · refine ⟨(if 0 < i then [Event.sleep] else []) ++
        (Event.req (marketParams table convert i []) :: Event.emit (bs i) :: t'), ?_, ?_⟩
      · rw [hstep, ht']
        simp
      · simp [hc]

/-- Claim C5: resolution (`coinNameToID`) is total and never fails: it trims
and lower-cases the input and looks it up in the table; on a hit it returns
the stored canonical ID, and on a miss it returns the slugified input, so a
best-effort identifier is always produced. -/
theorem coinNameToID_total (table : Table) (name : String) :
    (∃ id, alookup table (strToLower (trimSpace name)) = some id
        ∧ coinNameToID table name = id)
    ∨ (alookup table (strToLower (trimSpace name)) = none
        ∧ coinNameToID table name = nameToSlug name) := by
  cases h : alookup table (strToLower (trimSpace name)) with
  | some id => exact Or.inl ⟨id, rfl, by simp [coinNameToID, h]⟩
  | none => exact Or.inr ⟨rfl, by simp [coinNameToID, h]⟩

/-- Claim C9: `GetAllCoinData` returns a nil error value for every input,
including when the very first page fetch fails: in that case nothing is
emitted and the trace is just the failing request followed by the channel
closing, so failures are observable only as early stream termination. -/
theorem getAllCoinData_nil_error (table : Table) (market : MarketOracle)
    (convert : String) :
    (GetAllCoinData table market convert).1 = none
    ∧ (∀ e, market (marketParams table convert 0 []) = Except.error e →
        (GetAllCoinData table market convert).2 =
          [Event.req (marketParams table convert 0 []), Event.close]) := by
  refine ⟨rfl, fun e he => ?_⟩
  have hg : getPaginatedCoinData table market convert 0 [] = Except.error e := by
    simp [getPaginatedCoinData, he]
  show streamLoop table market convert 0 maxPages = _
  rw [show maxPages = 9 + 1 from rfl, streamLoop_succ, hg]
  rfl

/-- Witness for C9 at a provider that always errors. -/
theorem getAllCoinData_nil_error_witness :
    (GetAllCoinData [] (fun _ => Except.error "boom") "usd").1 = none
    ∧ (GetAllCoinData [] (fun _ => Except.error "boom") "usd").2 =
        [Event.req (marketParams [] "usd" 0 []), Event.close] :=
  ⟨(getAllCoinData_nil_error [] (fun _ => Except.error "boom") "usd").1,
   (getAllCoinData_nil_error [] (fun _ => Except.error "boom") "usd").2 "boom" rfl⟩

/-- Claim C10: `GetCoinData` returns the zero-value Coin with a nil error
when the page fetch succeeds with no records; a non-nil error is returned
exactly when the page fetch itself fails, and then the zero-value Coin is
returned alongside it. -/
theorem getCoinData_empty_ok (table : Table) (market : MarketOracle)
    (name : String) (convert : String) :
    (getPaginatedCoinData table market convert 0 [name] = Except.ok [] →
      GetCoinData table market name convert = (zeroCoin, none))
    ∧ (∀ e, getPaginatedCoinData table market convert 0 [name] = Except.error e →
      GetCoinData table market name convert = (zeroCoin, some e))
    ∧ (∀ r, (GetCoinData table market name convert).2 = some r →
      getPaginatedCoinData table market convert 0 [name] = Except.error r
      ∧ (GetCoinData table market name convert).1 = zeroCoin) := by
  refine ⟨fun h => by simp [GetCoinData, h], fun e h => by simp [GetCoinData, h],
    fun r hr => ?_⟩
  cases hg : getPaginatedCoinData table market convert 0 [name] with
  | error e2 =>
    have h2 : GetCoinData table market name convert = (zeroCoin, some e2) := by
      simp [GetCoinData, hg]
    rw [h2] at hr
    simp only [Option.some.injEq] at hr
    subst hr
    exact ⟨rfl, by rw [h2]⟩
  | ok coins =>
    cases coins with
    | nil =>
      have h2 : GetCoinData table market name convert = (zeroCoin, none) := by
        simp [GetCoinData, hg]
      rw [h2] at hr
      cases hr
    | cons c rest =>
      have h2 : GetCoinData table market name convert = (c, none) := by
        simp [GetCoinData, hg]
      rw [h2] at hr
      cases hr

/-- Witness for C10 at a provider returning a nil page. -/
theorem getCoinData_empty_ok_witness :
    GetCoinData [] (fun _ => Except.ok none) "x" "usd" = (zeroCoin, none) :=
  (getCoinData_empty_ok [] (fun _ => Except.ok none) "x" "usd").1 rfl

theorem priceLoop_eq_none_iff (conv : String) (l : List (List (String × ℚ))) :
    priceLoop conv l = none ↔ ∀ item ∈ l, alookup item conv = none := by
  induction l with
  | nil => simp [priceLoop]
  | cons item rest ih =>
    cases h : alookup item conv with
    | some p => simp [priceLoop, h]
    | none => simp [priceLoop, h, ih]

theorem priceLoop_eq_find? (conv : String) (l : List (List (String × ℚ))) :
    priceLoop conv l =
      Option.bind (l.find? (fun item => (alookup item conv).isSome))
        (fun item => alookup item conv) := by
  induction l with
  | nil => rfl
  | cons item rest ih =>
    cases h : alookup item conv with
    | some p =>
      rw [List.find?_cons_of_pos _ (by simp [h])]
      simp [priceLoop, h]
    | none =>
      rw [List.find?_cons_of_neg _ (by simp [h])]
      simp [priceLoop, h, ih]

/-- Claim C8: `Price` returns `ErrNotFound` with price 0 exactly when the
simple-price call succeeds but no returned entry carries the lower-cased
requested currency; when some entry does, the first matching entry's
formatted price is returned with a nil error; and an error of the lookup
itself is propagated to the caller unchanged (the oracle is consulted once in
the body of `Price`, so there is no retry). -/
theorem price_notFound_spec (table : Table) (sp : SimplePriceOracle)
    (name : String) (convert : String) :
    (∀ e, sp [coinNameToID table name] [strToLower convert] = Except.error e →
        Price table sp name convert = (0, some (PriceError.upstream e)))
    ∧ (∀ l, sp [coinNameToID table name] [strToLower convert] = Except.ok l →
        priceLoop (strToLower convert) l = none →
        Price table sp name convert = (0, some PriceError.errNotFound))
    ∧ (∀ l p, sp [coinNameToID table name] [strToLower convert] = Except.ok l →
        priceLoop (strToLower convert) l = some p →
        Price table sp name convert = (FormatPrice p (strToLower convert), none))
    ∧ ((Price table sp name convert).2 = some PriceError.errNotFound ↔
        ∃ l, sp [coinNameToID table name] [strToLower convert] = Except.ok l
          ∧ ∀ item ∈ l, alookup item (strToLower convert) = none)
    ∧ (∀ l, priceLoop (strToLower convert) l =
        Option.bind (l.find? (fun item => (alookup item (strToLower convert)).isSome))
          (fun item => alookup item (strToLower convert))) := by
  refine ⟨fun e h => by simp [Price, h], ?_, ?_, ?_, fun l => priceLoop_eq_find? _ l⟩
  · intro l hl hnone
    simp [Price, hl, hnone]
  · intro l p hl hsome
    simp [Price, hl, hsome]
  · constructor
    · intro h
      cases hsp : sp [coinNameToID table name] [strToLower convert] with
      | error e =>
        have : Price table sp name convert = (0, some (PriceError.upstream e)) := by
          simp [Price, hsp]
        rw [this] at h
        simp at h
      | ok l =>
        cases hpl : priceLoop (strToLower convert) l with
        | some p =>
          have : Price table sp name convert =
              (FormatPrice p (strToLower convert), none) := by
            simp [Price, hsp, hpl]
          rw [this] at h
          cases h
        | none =>
          exact ⟨l, rfl, (priceLoop_eq_none_iff _ l).1 hpl⟩
    · rintro ⟨l, hl, hall⟩
      have hpl : priceLoop (strToLower convert) l = none :=
        (priceLoop_eq_none_iff _ l).2 hall
      simp [Price, hl, hpl]

/-- Witness for C8: a successful lookup containing the requested currency,
and one containing only another currency. -/
theorem price_notFound_spec_witness :
    Price [] (fun _ _ => Except.ok [[("usd", 5)]]) "bitcoin" "USD" =
      (FormatPrice 5 (strToLower "USD"), none)
    ∧ (Price [] (fun _ _ => Except.ok [[("eur", 5)]]) "bitcoin" "USD").2 =
      some PriceError.errNotFound := by
  constructor
  · exact (price_notFound_spec [] (fun _ _ => Except.ok [[("usd", 5)]])
      "bitcoin" "USD").2.2.1 [[("usd", 5)]] 5 rfl (by decide)
  · exact ((price_notFound_spec [] (fun _ _ => Except.ok [[("eur", 5)]])
      "bitcoin" "USD").2.2.2.1).2 ⟨[[("eur", 5)]], rfl, by decide⟩

/-- Claim C7: in the normalization loop of `getPaginatedCoinData`, a raw
total supply of 0 falls back to the circulating (available) supply and any
other raw total supply passes through; each 1h/24h/7d/30d percent-change
field defaults to 0 when the provider field is nil and passes through
otherwise; absence is never an error (the function is total, and a
successful page normalizes every record). -/
theorem normalize_supply_percent_defaults (convert : String) (item : GeckoItem) :
    ((item.TotalSupply = 0 →
        (normalizeItem convert item).TotalSupply = item.CirculatingSupply)
      ∧ (item.TotalSupply ≠ 0 →
        (normalizeItem convert item).TotalSupply = item.TotalSupply))
    ∧ ((item.PriceChangePercentage1hInCurrency = none →
        (normalizeItem convert item).PercentChange1H = 0)
      ∧ ∀ x, item.PriceChangePercentage1hInCurrency = some x →
        (normalizeItem convert item).PercentChange1H = x)
    ∧ ((item.PriceChangePercentage24hInCurrency = none →
        (normalizeItem convert item).PercentChange24H = 0)
      ∧ ∀ x, item.PriceChangePercentage24hInCurrency = some x →
        (normalizeItem convert item).PercentChange24H = x)
    ∧ ((item.PriceChangePercentage7dInCurrency = none →
        (normalizeItem convert item).PercentChange7D = 0)
      ∧ ∀ x, item.PriceChangePercentage7dInCurrency = some x →
        (normalizeItem convert item).PercentChange7D = x)
    ∧ ((item.PriceChangePercentage30dInCurrency = none →
        (normalizeItem convert item).PercentChange30D = 0)
      ∧ ∀ x, item.PriceChangePercentage30dInCurrency = some x →
        (normalizeItem convert item).PercentChange30D = x)
    ∧ (∀ (table : Table) (market : MarketOracle) (offset : Nat)
        (names : List String) (l : List GeckoItem),
        market (marketParams table convert offset names) = Except.ok (some l) →
        getPaginatedCoinData table market convert offset names =
          Except.ok (l.map (normalizeItem convert))) := by
  refine ⟨⟨?_, ?_⟩, ⟨?_, ?_⟩, ⟨?_, ?_⟩, ⟨?_, ?_⟩, ⟨?_, ?_⟩, ?_⟩
  · intro h; simp [normalizeItem, FormatSupply, h]
  · intro h; simp [normalizeItem, FormatSupply, h]
  · intro h; simp [normalizeItem, FormatPercentChange, h]
  · intro x h; simp [normalizeItem, FormatPercentChange, h]
  · intro h; simp [normalizeItem, FormatPercentChange, h]
  · intro x h; simp [normalizeItem, FormatPercentChange, h]
  · intro h; simp [normalizeItem, FormatPercentChange, h]
  · intro x h; simp [normalizeItem, FormatPercentChange, h]
  · intro h; simp [normalizeItem, FormatPercentChange, h]
  · intro x h; simp [normalizeItem, FormatPercentChange, h]
  · intro table market offset names l h
    simp [getPaginatedCoinData, h]

/-- Witness for C7: total supply 0 with circulating supply 1000 normalizes
to total supply 1000, and a missing 7-day percent change normalizes to 0. -/
theorem normalize_supply_percent_defaults_witness :
    (normalizeItem "usd"
      ⟨"btc", "Bitcoin", "btc", 1, 3, 1000, 0, 7, 9, "now", none, none, none, none⟩).TotalSupply = 1000
    ∧ (normalizeItem "usd"
      ⟨"btc", "Bitcoin", "btc", 1, 3, 1000, 0, 7, 9, "now", none, none, none, none⟩).PercentChange7D = 0 :=
  ⟨(normalize_supply_percent_defaults "usd"
      ⟨"btc", "Bitcoin", "btc", 1, 3, 1000, 0, 7, 9, "now", none, none, none, none⟩).1.1 rfl,
   (normalize_supply_percent_defaults "usd"
      ⟨"btc", "Bitcoin", "btc", 1, 3, 1000, 0, 7, 9, "now", none, none, none, none⟩).2.2.2.1.1 rfl⟩

/-- Claim C6: two currency strings that agree after lower-casing give
identical normalized output from a paginated fetch against the same
provider, and the empty currency behaves identically to "usd". -/
theorem currency_case_insensitive (table : Table) (market : MarketOracle)
    (offset : Nat) (names : List String) (c1 c2 : String)
    (h : strToLower c1 = strToLower c2) :
    getPaginatedCoinData table market c1 offset names
      = getPaginatedCoinData table market c2 offset names
    ∧ getPaginatedCoinData table market "" offset names
      = getPaginatedCoinData table market "usd" offset names := by
  constructor
  · have hmp : marketParams table c1 offset names = marketParams table c2 offset names := by
      simp [marketParams, h]
    have hni : normalizeItem c1 = normalizeItem c2 := by
      funext item
      simp [normalizeItem, FormatPrice, h]
    simp only [getPaginatedCoinData, hmp, hni]
  · have hmp : marketParams table "" offset names = marketParams table "usd" offset names := rfl
    have hni : normalizeItem "" = normalizeItem "usd" := by
      funext item
      rfl
    simp only [getPaginatedCoinData, hmp, hni]

/-- Witness for C6 at the currencies "Usd" and "usd". -/
theorem currency_case_insensitive_witness :
    getPaginatedCoinData [] (fun _ => Except.ok none) "Usd" 0 []
      = getPaginatedCoinData [] (fun _ => Except.ok none) "usd" 0 []
    ∧ getPaginatedCoinData [] (fun _ => Except.ok none) "" 0 []
      = getPaginatedCoinData [] (fun _ => Except.ok none) "usd" 0 [] :=
  currency_case_insensitive [] (fun _ => Except.ok none) 0 [] "Usd" "usd" (by decide)

/-- Claim C1: if pages 1..N-1 fetch successfully and page N fails, the
stream emits exactly the N-1 earlier batches unchanged and in order,
requests each of pages 1..N exactly once (no retries, no further pages), and
closes the channel exactly once, immediately at the end of the trace; the
channel carries only `emit` batches, so no error value is delivered. -/
theorem getAllCoinData_partial_failure (table : Table) (market : MarketOracle)
    (convert : String) (N : Nat) (bs : Nat → List Coin) (e : String)
    (hN1 : 1 ≤ N) (hN2 : N ≤ maxPages)
    (hok : ∀ j, j + 1 < N →
      getPaginatedCoinData table market convert j [] = Except.ok (bs j))
    (hfail : getPaginatedCoinData table market convert (N - 1) [] = Except.error e) :
    emittedBatches (GetAllCoinData table market convert).2 = (natRange 0 (N - 1)).map bs
    ∧ (emittedBatches (GetAllCoinData table market convert).2).length = N - 1
    ∧ reqPages (GetAllCoinData table market convert).2 = natRange 1 N
    ∧ (∃ t', (GetAllCoinData table market convert).2 = t' ++ [Event.close]
        ∧ countClose t' = 0)
    ∧ countClose (GetAllCoinData table market convert).2 = 1 := by
  have hok' : ∀ j, j < N - 1 →
      getPaginatedCoinData table market convert j [] = Except.ok (bs j) :=
    fun j hj => hok j (by omega)
  obtain ⟨hA, hB, t', ht', hc⟩ :=
    streamLoop_fail table market convert bs (N - 1) e hok' hfail maxPages 0
      (by omega) (by omega)
  refine ⟨hA, ?_, ?_, ⟨t', ht', hc⟩, ?_⟩
  · rw [show emittedBatches (GetAllCoinData table market convert).2
        = (natRange 0 (N - 1)).map bs from hA]
    simp
  · have hN : N - 1 + 1 = N := by omega
    rw [← hN]
    exact hB
  · show countClose (streamLoop table market convert 0 maxPages) = 1
    rw [ht']
    simp [hc]

/-- Witness for C1: a provider failing on page 3 of a longer catalog yields
exactly two emitted batches, requests for pages 1..3, and a closed stream. -/
theorem getAllCoinData_partial_failure_witness :
    (emittedBatches (GetAllCoinData []
        (fun p => if p.page ≤ 2 then Except.ok (some []) else Except.error "fail")
        "usd").2).length = 2
    ∧ reqPages (GetAllCoinData []
        (fun p => if p.page ≤ 2 then Except.ok (some []) else Except.error "fail")
        "usd").2 = natRange 1 3
    ∧ countClose (GetAllCoinData []
        (fun p => if p.page ≤ 2 then Except.ok (some []) else Except.error "fail")
        "usd").2 = 1 := by
  have h := getAllCoinData_partial_failure []
    (fun p => if p.page ≤ 2 then Except.ok (some []) else Except.error "fail")
    "usd" 3 (fun _ => []) "fail" (by decide) (by decide)
    (fun j hj => by
      match j with
      | 0 => rfl
      | 1 => rfl
      | n + 2 => omega)
    rfl
  exact ⟨h.2.1, h.2.2.1, h.2.2.2.2⟩

/-- Claim C4: with an error-free provider offering at least the ceiling's
worth of pages, the stream is the ideal trace: exactly `maxPages = 10`
batches emitted, pages requested strictly sequentially starting at page 1
with page size 250, one pause between successive requests and none before
the first, and a single close at the end. -/
theorem getAllCoinData_ceiling (table : Table) (market : MarketOracle)
    (convert : String) (bs : Nat → List Coin)
    (hok : ∀ j, j < maxPages →
      getPaginatedCoinData table market convert j [] = Except.ok (bs j)) :
    (GetAllCoinData table market convert).2 = steadyTrace table convert bs 0 maxPages
    ∧ emittedBatches (GetAllCoinData table market convert).2 = (natRange 0 maxPages).map bs
    ∧ (emittedBatches (GetAllCoinData table market convert).2).length = maxPages
    ∧ maxPages = 10
    ∧ reqPages (GetAllCoinData table market convert).2 = natRange 1 maxPages
    ∧ (∀ (offset : Nat) (names : List String),
        (marketParams table convert offset names).page = offset + 1
        ∧ (marketParams table convert offset names).perPage = 250)
    ∧ countClose (GetAllCoinData table market convert).2 = 1 := by
  obtain ⟨hS, hA, hB, t', ht', hc⟩ :=
    streamLoop_ok table market convert bs maxPages 0 (fun j hj => hok j (by omega))
  refine ⟨hS, hA, ?_, rfl, hB, fun offset names => ⟨rfl, rfl⟩, ?_⟩
  · rw [show emittedBatches (GetAllCoinData table market convert).2
        = (natRange 0 maxPages).map bs from hA]
    simp
  · show countClose (streamLoop table market convert 0 maxPages) = 1
    rw [ht']
    simp [hc]

/-- Witness for C4 at an error-free provider: ten batches, pages 1..10. -/
theorem getAllCoinData_ceiling_witness :
    (emittedBatches (GetAllCoinData [] (fun _ => Except.ok (some [])) "usd").2).length = 10
    ∧ reqPages (GetAllCoinData [] (fun _ => Except.ok (some [])) "usd").2 = natRange 1 10 := by
  have h := getAllCoinData_ceiling [] (fun _ => Except.ok (some [])) "usd"
    (fun _ => []) (fun j hj => rfl)
  exact ⟨h.2.2.1, h.2.2.2.2.1⟩

/-- Counterexample to claim C2 as stated: a catalog entry whose name has a
leading space. The entry's lower-cased name is stored in the table, and no
other entry exists to have claimed the key, yet resolving that lower-cased
name does not return the entry's ID, because `coinNameToID` trims the input
before the lookup and therefore misses the untrimmed stored key. -/
theorem cacheCoinsIDList_resolve_counterexample :
    alookup (cacheCoinsIDList [⟨"xyz", " A B", "zz"⟩])
        (strToLower (⟨"xyz", " A B", "zz"⟩ : CatalogEntry).Name) = some "xyz"
    ∧ coinNameToID (cacheCoinsIDList [⟨"xyz", " A B", "zz"⟩])
        (strToLower (⟨"xyz", " A B", "zz"⟩ : CatalogEntry).Name) ≠ "xyz" := by
  decide

/-- Claim C2 (amended): for every catalog and every entry in it, resolving
any of the entry's pass keys (lower-cased name, lower-cased symbol, slug of
the name) that is invariant under the trim-and-lower input normalization of
`coinNameToID` returns that entry's canonical ID, unless an entry appearing
earlier in catalog order already registered that exact key during the pass,
in which case the earliest such entry's ID is retained (first-seen
precedence; a stored key is never overwritten, not even by a deferred
first-word alias). -/
theorem cacheCoinsIDList_first_seen (l1 l2 : List CatalogEntry)
    (e : CatalogEntry) (k : String)
    (hk : k ∈ passKeys e) (hnorm : strToLower (trimSpace k) = k) :
    coinNameToID (cacheCoinsIDList (l1 ++ e :: l2)) k =
      (Option.map CatalogEntry.ID
        (l1.find? (fun e' => decide (k ∈ passKeys e')))).getD e.ID := by
  have hfind : (e :: l2).find? (fun e' => decide (k ∈ passKeys e')) = some e :=
    List.find?_cons_of_pos _ (by simpa using hk)
  have hpass : alookup (passTable (l1 ++ e :: l2)) k =
      some ((Option.map CatalogEntry.ID
        (l1.find? (fun e' => decide (k ∈ passKeys e')))).getD e.ID) := by
    rw [alookup_passTable, find?_append_opt, hfind]
    cases hf : l1.find? (fun e' => decide (k ∈ passKeys e')) with
    | none => rfl
    | some e' => rfl
  have hc := alookup_cache_of_passTable _ _ _ hpass
  unfold coinNameToID
  rw [hnorm, hc]

/-- Witness for C2 (amended): a deliberate key collision; the first entry's
ID wins for the shared name key. -/
theorem cacheCoinsIDList_first_seen_witness :
    coinNameToID
      (cacheCoinsIDList [⟨"A", "Bitcoin", "BTC"⟩, ⟨"B", "Bitcoin", "XBT"⟩])
      "bitcoin" = "A" := by
  have h := cacheCoinsIDList_first_seen [⟨"A", "Bitcoin", "BTC"⟩] []
    ⟨"B", "Bitcoin", "XBT"⟩ "bitcoin" (by decide) (by decide)
  exact h.trans (by decide)

/-- Claim C3: during the catalog pass a multi-word name whose second word is
not "coin" contributes only its full-name/symbol/slug keys while its first
word is collected as a deferred alias; a second word equal to "coin" makes
the first word a pass key immediately and defers nothing; the table build is
exactly the pass followed by a commit of the deferred aliases, and a key
present after the pass is never displaced by a deferred alias, so explicit
keys take precedence regardless of catalog order — in particular, with
catalog ["Bitcoin Cash" -> A, "Bitcoin" -> B], "bitcoin" resolves to B. -/
theorem deferred_alias_commit (catalog : List CatalogEntry) :
    cacheCoinsIDList catalog = commitDeferred (passTable catalog) (deferredAliases catalog)
    ∧ (∀ k v, alookup (passTable catalog) k = some v →
        alookup (cacheCoinsIDList catalog) k = some v)
    ∧ (∀ e : CatalogEntry, 1 < (splitOnSpace (strToLower e.Name)).length →
        (((splitOnSpace (strToLower e.Name))[1]! = "coin" →
          passKeys e = [strToLower e.Name, strToLower e.Symbol, nameToSlug e.Name,
            (splitOnSpace (strToLower e.Name))[0]!]
          ∧ deferredOf e = [])
        ∧ ((splitOnSpace (strToLower e.Name))[1]! ≠ "coin" →
          passKeys e = [strToLower e.Name, strToLower e.Symbol, nameToSlug e.Name]
          ∧ deferredOf e = [((splitOnSpace (strToLower e.Name))[0]!, e.ID)])))
    ∧ coinNameToID (cacheCoinsIDList
        [⟨"A", "Bitcoin Cash", "BCH"⟩, ⟨"B", "Bitcoin", "BTC"⟩]) "bitcoin" = "B" := by
  refine ⟨cacheCoinsIDList_eq catalog,
    fun k v h => alookup_cache_of_passTable catalog k v h, ?_, by decide⟩
  intro e hlen
  constructor
  · intro hcoin
    exact ⟨by simp [passKeys, hlen, hcoin], by simp [deferredOf, hlen, hcoin]⟩
  · intro hncoin
    exact ⟨by simp [passKeys, hlen, hncoin], by simp [deferredOf, hlen, hncoin]⟩

/-- Witness for C3: the "Bitcoin Cash" entry defers its first word, and a
key registered during the pass survives the deferred commit. -/
theorem deferred_alias_commit_witness :
    alookup (cacheCoinsIDList [⟨"A", "Bitcoin Cash", "BCH"⟩]) "bch" = some "A"
    ∧ deferredOf (⟨"A", "Bitcoin Cash", "BCH"⟩ : CatalogEntry) = [("bitcoin", "A")] := by
  refine ⟨(deferred_alias_commit [⟨"A", "Bitcoin Cash", "BCH"⟩]).2.1 "bch" "A" (by decide), ?_⟩
  exact (((deferred_alias_commit [⟨"A", "Bitcoin Cash", "BCH"⟩]).2.2.1
    ⟨"A", "Bitcoin Cash", "BCH"⟩ (by decide)).2 (by decide)).2

end Coingecko
